import Mathlib

/-!
Verification of the multigrid / block-preconditioning core described by the
firedrakeproject/notebooks corpus.  The notebooks configure the solver stack
(mesh hierarchies, grid transfer, multigrid cycles, Schur-complement field
splits, Krylov termination) through Firedrake/PETSc; the algorithmic core
itself is that external stack, so the definitions below embed it following
the specification's description of each operation, together with the block
factorisation identities and degree-of-freedom formulas that the notebooks
state explicitly in their markdown cells.

Vectors are modelled as total functions `ℕ → ℚ` with an explicit active
length, matrices as `ℕ → ℕ → ℚ`; all arithmetic is exact rational
arithmetic standing in for the floating-point arithmetic of the source.
-/

namespace FiredrakeMG

/-- A vector: entries indexed by naturals, of which a prefix is active. -/
def Vec : Type := ℕ → ℚ

/-- A matrix: entries indexed by (row, column). -/
def Mat : Type := ℕ → ℕ → ℚ

/-- Pointwise sum of two vectors. -/
def vadd (x y : Vec) : Vec := fun i => x i + y i

/-- Pointwise difference of two vectors. -/
def vsub (x y : Vec) : Vec := fun i => x i - y i

/-- Scalar multiple of a vector. -/
def smul (c : ℚ) (x : Vec) : Vec := fun i => c * x i

/-- The zero vector. -/
def vzero : Vec := fun _ => 0

/-- The constant vector of all ones. -/
def onesVec : Vec := fun _ => 1

/-- Inner product of the first `n` entries of two vectors. -/
def dot (n : ℕ) (x y : Vec) : ℚ := ∑ i ∈ Finset.range n, x i * y i

/-- Matrix-vector product: row `i` of `A` against the first `n` entries of `x`. -/
def mulVecN (n : ℕ) (A : Mat) (x : Vec) : Vec :=
  fun i => ∑ j ∈ Finset.range n, A i j * x j

/-- Transpose of a matrix. -/
def transposeM (A : Mat) : Mat := fun i j => A j i

/-- Modelled from the spec: `prolong` (Firedrake's grid-transfer operator, not
in the notebook sources) is a sparse matrix-vector product with the fixed
prolongation matrix `P` whose rows are fine dofs and columns are coarse dofs;
`nc` is the coarse dof count. -/
def prolongV (nc : ℕ) (P : Mat) (x : Vec) : Vec := mulVecN nc P x

/-- Modelled from the spec: `restrict` (Firedrake's grid-transfer operator,
not in the notebook sources) computes `Pᵀ · fine_residual` exactly — it is
derived as the transpose of the prolongation matrix, never independently;
`nf` is the fine dof count. -/
def restrictV (nf : ℕ) (P : Mat) (y : Vec) : Vec := mulVecN nf (transposeM P) y

theorem dot_comm (n : ℕ) (x y : Vec) : dot n x y = dot n y x := by
  unfold dot
  exact Finset.sum_congr rfl fun i _ => mul_comm (x i) (y i)

theorem dot_mulVecN (n m : ℕ) (A : Mat) (x y : Vec) :
    dot m (mulVecN n A x) y = ∑ i ∈ Finset.range m, ∑ j ∈ Finset.range n, A i j * x j * y i := by
  unfold dot mulVecN
  exact Finset.sum_congr rfl fun i _ => Finset.sum_mul _ _ _

/-- C1. Transfer duality: for every prolongation matrix `P` between a coarse
level of `nc` dofs and a fine level of `nf` dofs, and all vectors `x`
(coarse-sized) and `y` (fine-sized), the coarse inner product of
`restrict y` with `x` equals the fine inner product of `y` with `prolong x`;
restriction is definitionally the algebraic transpose `Pᵀ · y`. -/
theorem transfer_duality (nc nf : ℕ) (P : Mat) (x y : Vec) :
    dot nc (restrictV nf P y) x = dot nf y (prolongV nc P x) ∧
    restrictV nf P y = mulVecN nf (transposeM P) y := by
  refine ⟨?_, rfl⟩
  unfold restrictV prolongV
  rw [dot_mulVecN, dot_comm, dot_mulVecN, Finset.sum_comm]
  refine Finset.sum_congr rfl fun i _ => Finset.sum_congr rfl fun j _ => ?_
  unfold transposeM
  ring

/-- Modelled from the spec: the standard 1-D piecewise-linear nodal
prolongation matrix for a uniformly refined interval hierarchy (the grid
transfer the notebooks' exercise builds with Firedrake, not in the sources).
Coarse dofs `j < nc` sit at the even fine dofs `2*j`; fine dofs `2*j+1` are
cell midpoints interpolated with weight `1/2` from each neighbour. -/
def P1d (i j : ℕ) : ℚ :=
  if i = 2 * j then 1 else if i = 2 * j + 1 ∨ i + 1 = 2 * j then 1 / 2 else 0

/-- Modelled from the spec: `inject` (Firedrake's grid-transfer operator, not
in the notebook sources) is pointwise sampling of the fine primal field at
the coarse dof locations — for the 1-D family, coarse dof `j` reads fine
dof `2*j`. -/
def inject1d (v : Vec) : Vec := fun j => v (2 * j)

theorem restrict1d_ones_at_zero (nc : ℕ) (h : 2 ≤ nc) :
    restrictV (2 * nc - 1) P1d onesVec 0 = 3 / 2 := by
  unfold restrictV mulVecN transposeM onesVec
  have hsub : Finset.range 2 ⊆ Finset.range (2 * nc - 1) := by
    apply Finset.range_subset.mpr
    omega
  have hvan : ∀ i ∈ Finset.range (2 * nc - 1), i ∉ Finset.range 2 →
      P1d i 0 * 1 = 0 := by
    intro i _ hi
    rw [Finset.mem_range, not_lt] at hi
    unfold P1d
    rw [if_neg (by omega), if_neg (by omega)]
    ring
  rw [← Finset.sum_subset hsub hvan]
  rw [Finset.sum_range_succ, Finset.sum_range_one]
  unfold P1d
  norm_num

/-- C7. Injection and restriction are distinct operators: on the 1-D nodal
hierarchy family with `nc ≥ 2` coarse dofs, the all-ones fine vector is
injected to value `1` at coarse dof `0` but restricted (as the transpose of
the prolongation) to value `3/2` there, so `inject v ≠ restrict v` for some
`v`. -/
theorem inject_ne_restrict (nc : ℕ) (h : 2 ≤ nc) :
    ∃ v : Vec, inject1d v 0 ≠ restrictV (2 * nc - 1) P1d v 0 := by
  refine ⟨onesVec, ?_⟩
  rw [restrict1d_ones_at_zero nc h]
  unfold inject1d onesVec
  norm_num

/-- C7 witness: at `nc = 2` the two transfer operators disagree on a vector. -/
theorem inject_ne_restrict_witness :
    (2 ≤ 2) ∧ ∃ v : Vec, inject1d v 0 ≠ restrictV (2 * 2 - 1) P1d v 0 :=
  ⟨le_refl 2, inject_ne_restrict 2 (le_refl 2)⟩

theorem P1d_row_sum_even (nc q : ℕ) (hq : q < nc) :
    ∑ j ∈ Finset.range nc, P1d (2 * q) j = 1 := by
  rw [Finset.sum_eq_single_of_mem q (Finset.mem_range.mpr hq)]
  · unfold P1d
    rw [if_pos rfl]
  · intro j _ hj
    unfold P1d
    rw [if_neg (by omega), if_neg (by omega)]

theorem P1d_row_sum_odd (nc q : ℕ) (hq : q + 1 < nc) :
    ∑ j ∈ Finset.range nc, P1d (2 * q + 1) j = 1 := by
  have hsub : ({q, q + 1} : Finset ℕ) ⊆ Finset.range nc := by
    intro x hx
    rw [Finset.mem_insert, Finset.mem_singleton] at hx
    rw [Finset.mem_range]
    omega
  have hvan : ∀ j ∈ Finset.range nc, j ∉ ({q, q + 1} : Finset ℕ) →
      P1d (2 * q + 1) j = 0 := by
    intro j _ hj
    rw [Finset.mem_insert, Finset.mem_singleton] at hj
    push_neg at hj
    unfold P1d
    rw [if_neg (by omega), if_neg (by omega)]
  rw [← Finset.sum_subset hsub hvan]
  rw [Finset.sum_pair (by omega : q ≠ q + 1)]
  unfold P1d
  rw [if_neg (by omega), if_pos (by omega), if_neg (by omega), if_pos (by omega)]
  norm_num

/-- C8. Prolongation exactness on constants: on the 1-D nodal hierarchy
family, prolonging the all-ones coarse vector yields `1` at every fine dof
(`i < 2*nc - 1`) — the rows of the nodal prolongation matrix form a
partition of unity. -/
theorem prolong_ones (nc i : ℕ) (hnc : 1 ≤ nc) (hi : i < 2 * nc - 1) :
    prolongV nc P1d onesVec i = 1 := by
  unfold prolongV mulVecN onesVec
  simp only [mul_one]
  rcases Nat.even_or_odd i with ⟨q, hq⟩ | ⟨q, hq⟩
  · have hqlt : q < nc := by omega
    rw [show i = 2 * q by omega]
    exact P1d_row_sum_even nc q hqlt
  · have hqlt : q + 1 < nc := by omega
    rw [show i = 2 * q + 1 by omega]
    exact P1d_row_sum_odd nc q hqlt

/-- C8 witness: on the hierarchy with 2 coarse and 3 fine dofs, the midpoint
fine dof of the prolonged all-ones vector evaluates to `1`. -/
theorem prolong_ones_witness :
    (1 ≤ 2) ∧ (1 < 2 * 2 - 1) ∧ prolongV 2 P1d onesVec 1 = 1 :=
  ⟨by norm_num, by norm_num, prolong_ones 2 1 (by norm_num) (by norm_num)⟩

theorem rangeMap_getD {α : Type} (f : ℕ → α) (n i : ℕ) (d : α) (h : i < n) :
    ((List.range n).map f).getD i d = f i := by
  have hlen : i < ((List.range n).map f).length := by simp [h]
  rw [List.getD_eq_getElem _ _ hlen]
  simp

/-- A discretization instance, carrying its degree-of-freedom count. -/
structure Discretization where
  dofCount : ℕ

instance : Inhabited Discretization := ⟨⟨0⟩⟩

/-- Modelled from the spec: `build(coarse_discretization, num_refinements)`
(Firedrake's `MeshHierarchy`, not in the notebook sources) applies the
uniform refinement rule `refine` repeatedly to the coarse discretization,
returning the levels ordered coarsest (index 0) to finest (index R). -/
def build (refine : Discretization → Discretization) (coarse : Discretization)
    (R : ℕ) : List Discretization :=
  (List.range (R + 1)).map (fun i => refine^[i] coarse)

/-- C4. Hierarchy construction: for a refinable coarse discretization (one
whose refinement rule strictly increases the dof count) and any
`num_refinements R ≥ 0`, `build` returns exactly `R+1` levels, level 0 is
the coarse input, level `i` is the `i`-fold refinement (so levels are
ordered coarsest to finest), and dof counts strictly increase with each
refinement step (hence `n_0 ≤ n_1 ≤ … ≤ n_{L-1}`). -/
theorem build_levels (refine : Discretization → Discretization)
    (coarse : Discretization) (R : ℕ)
    (hrefine : ∀ d, d.dofCount < (refine d).dofCount) :
    (build refine coarse R).length = R + 1 ∧
    (build refine coarse R).getD 0 default = coarse ∧
    (∀ i, i ≤ R → (build refine coarse R).getD i default = refine^[i] coarse) ∧
    (∀ i, i < R →
      ((build refine coarse R).getD i default).dofCount <
        ((build refine coarse R).getD (i + 1) default).dofCount) := by
  have hget : ∀ i, i ≤ R → (build refine coarse R).getD i default = refine^[i] coarse := by
    intro i hi
    unfold build
    rw [rangeMap_getD _ _ _ _ (by omega)]
  refine ⟨by simp [build], by simpa using hget 0 (Nat.zero_le R), hget, ?_⟩
  intro i hi
  rw [hget i (by omega), hget (i + 1) (by omega), Function.iterate_succ_apply']
  exact hrefine _

/-- A concrete refinement rule used to instantiate `build_levels`. -/
def wRefine : Discretization → Discretization := fun d => ⟨2 * d.dofCount + 1⟩

/-- C4 witness: building 2 refinements over a 5-dof coarse discretization
gives 3 levels with strictly increasing dof counts. -/
theorem build_levels_witness :
    (build wRefine ⟨5⟩ 2).length = 3 ∧
    ((build wRefine ⟨5⟩ 2).getD 1 default).dofCount <
      ((build wRefine ⟨5⟩ 2).getD 2 default).dofCount := by
  have h := build_levels wRefine ⟨5⟩ 2
    (fun d => by show d.dofCount < 2 * d.dofCount + 1; omega)
  exact ⟨h.1, h.2.2.2 1 (by omega)⟩

/-- Modelled from the spec: uniform refinement of a structured cube mesh
(one `MeshHierarchy` step, Firedrake code not in the sources) halves the
mesh spacing, doubling the cell count per edge. -/
def refineCube (n : ℕ) : ℕ := 2 * n

/-- Modelled from the spec: the mesh hierarchy over a unit cube with `Nx`
cells per edge on the coarse mesh and `Nref` uniform refinements, each level
recorded as its cells-per-edge count, coarsest first. -/
def cubeHierarchy (Nx Nref : ℕ) : List ℕ :=
  (List.range (Nref + 1)).map (fun i => refineCube^[i] Nx)

/-- Modelled from the spec: the dimension of the degree-`k` Lagrange space on
a unit cube mesh with `n` cells per edge — the notebook's DOF formula
`(k·n + 1)^d` with `d = 3`. -/
def lagrangeDim (k n : ℕ) : ℕ := (k * n + 1) ^ 3

theorem refineCube_iterate (m n : ℕ) : refineCube^[m] n = 2 ^ m * n := by
  induction m with
  | zero => simp
  | succ m ih =>
    rw [Function.iterate_succ_apply', ih]
    unfold refineCube
    ring

/-- C10. HPC Poisson dof count: for every `Nx ≥ 1`, `Nref ≥ 0`, `k ≥ 1`, the
degree-`k` Lagrange space on the finest mesh of the cube hierarchy has
exactly `(k · Nx · 2^Nref + 1)^3` degrees of freedom. -/
theorem hpc_dof_formula (Nx Nref k : ℕ) (hNx : 1 ≤ Nx) (hk : 1 ≤ k) :
    lagrangeDim k ((cubeHierarchy Nx Nref).getD Nref 0) =
      (k * Nx * 2 ^ Nref + 1) ^ 3 := by
  unfold cubeHierarchy
  rw [rangeMap_getD _ _ _ _ (by omega), refineCube_iterate]
  unfold lagrangeDim
  ring_nf

/-- C10 witness: the notebook's `Nx = 8`, `Nref = 2`, `k = 2` setup has
274625 degrees of freedom on the finest level. -/
theorem hpc_dof_formula_witness :
    (1 ≤ 8) ∧ (1 ≤ 2) ∧
      lagrangeDim 2 ((cubeHierarchy 8 2).getD 2 0) = 274625 := by
  refine ⟨by norm_num, by norm_num, ?_⟩
  rw [hpc_dof_formula 8 2 2 (by norm_num) (by norm_num)]
  norm_num

/-- The transfer-error taxonomy of the specification's §7. -/
inductive TransferError where
  | noCoarserLevel
  | noFinerLevel
  deriving DecidableEq

/-- A mesh hierarchy exposing the transfer API: `numLevels` levels ordered
coarsest first, per-level dof counts, and for each adjacent pair `(l, l+1)`
a prolongation matrix `P l` and an injection matrix `inj l`. -/
structure MGHierarchy where
  numLevels : ℕ
  levelDofs : ℕ → ℕ
  P : ℕ → Mat
  inj : ℕ → Mat

/-- Modelled from the spec: `restrict` at level `l` moves a residual from
level `l` to level `l-1` (Firedrake's transfer function, not in the notebook
sources); at the coarsest level it fails with `NoCoarserLevel`. -/
def restrictAt (H : MGHierarchy) (l : ℕ) (v : Vec) : Except TransferError Vec :=
  if l = 0 then .error .noCoarserLevel
  else .ok (restrictV (H.levelDofs l) (H.P (l - 1)) v)

/-- Modelled from the spec: `inject` at level `l` samples a primal fine
field down to level `l-1`; at the coarsest level it fails with
`NoCoarserLevel`. -/
def injectAt (H : MGHierarchy) (l : ℕ) (v : Vec) : Except TransferError Vec :=
  if l = 0 then .error .noCoarserLevel
  else .ok (mulVecN (H.levelDofs l) (H.inj (l - 1)) v)

/-- Modelled from the spec: `prolong` at level `l` moves a primal vector from
level `l` to level `l+1`; at the finest level it fails with `NoFinerLevel`. -/
def prolongAt (H : MGHierarchy) (l : ℕ) (v : Vec) : Except TransferError Vec :=
  if H.numLevels ≤ l + 1 then .error .noFinerLevel
  else .ok (prolongV (H.levelDofs l) (H.P l) v)

/-- C5. Transfer operations fail exactly at the hierarchy bounds: `restrict`
and `inject` at level 0 yield `NoCoarserLevel`, `prolong` at the finest
level yields `NoFinerLevel`, and at every interior level pair all three
operations succeed. -/
theorem transfer_bounds (H : MGHierarchy) (v : Vec) :
    restrictAt H 0 v = .error .noCoarserLevel ∧
    injectAt H 0 v = .error .noCoarserLevel ∧
    prolongAt H (H.numLevels - 1) v = .error .noFinerLevel ∧
    (∀ l, 0 < l → l < H.numLevels →
      (∃ w, restrictAt H l v = .ok w) ∧ (∃ w, injectAt H l v = .ok w)) ∧
    (∀ l, l + 1 < H.numLevels → ∃ w, prolongAt H l v = .ok w) := by
  refine ⟨?_, ?_, ?_, ?_, ?_⟩
  · unfold restrictAt
    rw [if_pos rfl]
  · unfold injectAt
    rw [if_pos rfl]
  · unfold prolongAt
    rw [if_pos (by omega)]
  · intro l hl _
    constructor
    · exact ⟨restrictV (H.levelDofs l) (H.P (l - 1)) v, by
        unfold restrictAt
        rw [if_neg (by omega)]⟩
    · exact ⟨mulVecN (H.levelDofs l) (H.inj (l - 1)) v, by
        unfold injectAt
        rw [if_neg (by omega)]⟩
  · intro l hl
    exact ⟨prolongV (H.levelDofs l) (H.P l) v, by
      unfold prolongAt
      rw [if_neg (by omega)]⟩

/-- A concrete three-level hierarchy used to instantiate `transfer_bounds`. -/
def wHier : MGHierarchy := ⟨3, fun _ => 3, fun _ => P1d, fun _ => P1d⟩

/-- C5 witness: on a three-level hierarchy, restrict fails at level 0,
prolong fails at level 2, and all transfers succeed at level 1. -/
theorem transfer_bounds_witness :
    restrictAt wHier 0 onesVec = .error .noCoarserLevel ∧
    prolongAt wHier 2 onesVec = .error .noFinerLevel ∧
    (∃ w, restrictAt wHier 1 onesVec = .ok w) ∧
    (∃ w, injectAt wHier 1 onesVec = .ok w) ∧
    (∃ w, prolongAt wHier 1 onesVec = .ok w) := by
  have h := transfer_bounds wHier onesVec
  have h1 := h.2.2.2.1 1 (by decide) (by decide)
  exact ⟨h.1, h.2.2.1, h1.1, h1.2, h.2.2.2.2 1 (by decide)⟩

/-- The per-level operator bundle a multigrid cycle consumes: the level
operator `A`, a single smoother application `smooth l b u`, the residual
restriction and correction prolongation between adjacent levels, and the
coarsest-level solve. -/
structure MGOps where
  A : ℕ → Vec → Vec
  smooth : ℕ → Vec → Vec → Vec
  restrictOp : ℕ → Vec → Vec
  prolongOp : ℕ → Vec → Vec
  coarseSolve : Vec → Vec

/-- Modelled from the spec: one multigrid cycle application on level `lvl`
with right-hand side `b` and current approximation `u` (§4.3 of the spec;
the cycle itself is PETSc's `pc_type mg`, not in the notebook sources).
`gamma` is the recursion count of step 4: once for a V-cycle, twice for a
W-cycle.  At level 0 the cycle is the coarse solve itself. -/
def mgCycle (ops : MGOps) (gamma pre post : ℕ) : ℕ → Vec → Vec → Vec
  | 0 => fun b _ => ops.coarseSolve b
  | l + 1 => fun b u =>
      let u1 := (fun w => ops.smooth (l + 1) b w)^[pre] u
      let r := vsub b (ops.A (l + 1) u1)
      let bc := ops.restrictOp (l + 1) r
      let uc := if l = 0 then ops.coarseSolve bc
                else (fun w => mgCycle ops gamma pre post l bc w)^[gamma] vzero
      let u2 := vadd u1 (ops.prolongOp (l + 1) uc)
      (fun w => ops.smooth (l + 1) b w)^[post] u2

/-- The intermediate state threaded through the six steps of one cycle
application at level `lvl`: rhs `b`, approximation `u`, residual `r`,
restricted rhs `bc` and coarse correction `uc`. -/
structure CycleState where
  b : Vec
  u : Vec
  r : Vec
  bc : Vec
  uc : Vec

/-- Step 1 (§4.3): apply the smoother `pre` times at level `lvl`. -/
def stepPreSmooth (ops : MGOps) (pre lvl : ℕ) (s : CycleState) : CycleState :=
  { s with u := (fun w => ops.smooth lvl s.b w)^[pre] s.u }

/-- Step 2 (§4.3): compute the residual `r = b - A u`. -/
def stepResidual (ops : MGOps) (lvl : ℕ) (s : CycleState) : CycleState :=
  { s with r := vsub s.b (ops.A lvl s.u) }

/-- Step 3 (§4.3): restrict the residual to the next-coarser level and
initialise the coarse correction to zero. -/
def stepRestrict (ops : MGOps) (lvl : ℕ) (s : CycleState) : CycleState :=
  { s with bc := ops.restrictOp lvl s.r, uc := vzero }

/-- Step 4 (§4.3): if the next-coarser level is the coarsest, solve there
directly; otherwise recurse `gamma` times (once for V, twice for W). -/
def stepRecurse (ops : MGOps) (gamma pre post lvl : ℕ) (s : CycleState) : CycleState :=
  { s with uc := if lvl - 1 = 0 then ops.coarseSolve s.bc
                 else (fun w => mgCycle ops gamma pre post (lvl - 1) s.bc w)^[gamma] s.uc }

/-- Step 5 (§4.3): prolong the coarse correction and add it to `u`. -/
def stepProlong (ops : MGOps) (lvl : ℕ) (s : CycleState) : CycleState :=
  { s with u := vadd s.u (ops.prolongOp lvl s.uc) }

/-- Step 6 (§4.3): apply the smoother `post` times at level `lvl`. -/
def stepPostSmooth (ops : MGOps) (post lvl : ℕ) (s : CycleState) : CycleState :=
  { s with u := (fun w => ops.smooth lvl s.b w)^[post] s.u }

/-- C2. Multigrid cycle step order: one cycle application at any level
`l+1 ≥ 1` is exactly the sequential composition of the six steps of §4.3 in
the stated order (pre-smooth, residual, restrict-and-zero, recurse-or-solve,
prolong-and-correct, post-smooth), and the step-4 recursion unfolds to one
recursive cycle invocation when `gamma = 1` (V-cycle) and to two chained
invocations when `gamma = 2` (W-cycle). -/
theorem mg_cycle_step_order (ops : MGOps) (gamma pre post l : ℕ) (b u : Vec) :
    mgCycle ops gamma pre post (l + 1) b u =
      (stepPostSmooth ops post (l + 1)
        (stepProlong ops (l + 1)
          (stepRecurse ops gamma pre post (l + 1)
            (stepRestrict ops (l + 1)
              (stepResidual ops (l + 1)
                (stepPreSmooth ops pre (l + 1) ⟨b, u, vzero, vzero, vzero⟩)))))).u ∧
    (∀ bc0 : Vec,
      (fun w => mgCycle ops 1 pre post l bc0 w)^[1] vzero =
        mgCycle ops 1 pre post l bc0 vzero) ∧
    (∀ bc0 : Vec,
      (fun w => mgCycle ops 2 pre post l bc0 w)^[2] vzero =
        mgCycle ops 2 pre post l bc0 (mgCycle ops 2 pre post l bc0 vzero)) := by
  refine ⟨?_, ?_, ?_⟩
  · simp only [mgCycle, stepPreSmooth, stepResidual, stepRestrict, stepRecurse,
      stepProlong, stepPostSmooth, Nat.add_sub_cancel]
  · intro bc0
    rw [Function.iterate_one]
  · intro bc0
    rw [show (2 : ℕ) = 1 + 1 from rfl, Function.iterate_add_apply, Function.iterate_one]

/-- The typed result of an outer Krylov solve: the convergence flag, the
(possibly partial) iterate, and the iteration count. -/
structure KrylovResult where
  converged : Bool
  x : Vec
  iterations : ℕ

/-- Modelled from the spec: the Krylov convergence test — relative residual
below `rtol` or absolute residual below `atol`, whichever triggers first. -/
def convTest (rtol atol r0 rk : ℚ) : Bool :=
  decide (rk / r0 < rtol) || decide (rk < atol)

/-- Modelled from the spec: the outer Krylov iteration loop (PETSc's KSP,
not in the notebook sources), abstracted over one Krylov update `step` and
the residual norm `resnorm` of an iterate.  `fuel` counts the remaining
allowed iterations; the loop tests before each update and, when fuel runs
out, returns normally with `converged = false`, the partial iterate and the
iteration count. -/
def krylovLoop (step : Vec → Vec) (resnorm : Vec → ℚ) (rtol atol r0 : ℚ) :
    ℕ → ℕ → Vec → KrylovResult
  | 0, k, x =>
      if convTest rtol atol r0 (resnorm x) then ⟨true, x, k⟩ else ⟨false, x, k⟩
  | fuel + 1, k, x =>
      if convTest rtol atol r0 (resnorm x) then ⟨true, x, k⟩
      else krylovLoop step resnorm rtol atol r0 fuel (k + 1) (step x)

/-- Modelled from the spec: a full outer Krylov solve from initial iterate
`x0` with a hard iteration cap `maxit`; `r0` is the initial residual norm. -/
def krylovSolve (step : Vec → Vec) (resnorm : Vec → ℚ) (rtol atol : ℚ)
    (maxit : ℕ) (x0 : Vec) : KrylovResult :=
  krylovLoop step resnorm rtol atol (resnorm x0) maxit 0 x0

theorem krylovLoop_spec (step : Vec → Vec) (resnorm : Vec → ℚ) (rtol atol r0 : ℚ) :
    ∀ (fuel : ℕ) (x : Vec) (k : ℕ),
    (∃ j, j ≤ fuel ∧
      convTest rtol atol r0 (resnorm (step^[j] x)) = true ∧
      (∀ i, i < j → convTest rtol atol r0 (resnorm (step^[i] x)) = false) ∧
      krylovLoop step resnorm rtol atol r0 fuel k x = ⟨true, step^[j] x, k + j⟩) ∨
    ((∀ j, j ≤ fuel → convTest rtol atol r0 (resnorm (step^[j] x)) = false) ∧
      krylovLoop step resnorm rtol atol r0 fuel k x = ⟨false, step^[fuel] x, k + fuel⟩) := by
  intro fuel
  induction fuel with
  | zero =>
    intro x k
    by_cases htest : convTest rtol atol r0 (resnorm x) = true
    · left
      refine ⟨0, le_refl 0, by simpa using htest, fun i hi => absurd hi (by omega), ?_⟩
      unfold krylovLoop
      rw [if_pos htest]
      simp
    · right
      rw [Bool.not_eq_true] at htest
      refine ⟨fun j hj => by rw [Nat.le_zero.mp hj]; simpa using htest, ?_⟩
      unfold krylovLoop
      rw [if_neg (by simp [htest])]
      simp
  | succ fuel ih =>
    intro x k
    by_cases htest : convTest rtol atol r0 (resnorm x) = true
    · left
      refine ⟨0, by omega, by simpa using htest, fun i hi => absurd hi (by omega), ?_⟩
      unfold krylovLoop
      rw [if_pos htest]
      simp
    · rw [Bool.not_eq_true] at htest
      have hrec : krylovLoop step resnorm rtol atol r0 (fuel + 1) k x =
          krylovLoop step resnorm rtol atol r0 fuel (k + 1) (step x) := by
        conv_lhs => rw [krylovLoop]
        rw [if_neg (by simp [htest])]
      rcases ih (step x) (k + 1) with ⟨j, hj, ht, hprev, heq⟩ | ⟨hall, heq⟩
      · left
        refine ⟨j + 1, by omega, ?_, ?_, ?_⟩
        · rwa [Function.iterate_succ_apply]
        · intro i hi
          match i with
          | 0 => simpa using htest
          | i + 1 =>
            rw [Function.iterate_succ_apply]
            exact hprev i (by omega)
        · rw [hrec, heq, Function.iterate_succ_apply,
            show k + (j + 1) = k + 1 + j by omega]
      · right
        refine ⟨?_, ?_⟩
        · intro j hj
          match j with
          | 0 => simpa using htest
          | j + 1 =>
            rw [Function.iterate_succ_apply]
            exact hall j (by omega)
        · rw [hrec, heq, Function.iterate_succ_apply,
            show k + (fuel + 1) = k + 1 + fuel by omega]

/-- C6. Krylov termination contract: the solve returns `converged = true`
exactly when the `‖r_k‖/‖r_0‖ < rtol` or `‖r_k‖ < atol` test first triggers
at some iterate within the `maxit` cap — in that case the result carries
that iterate and its index, and the test failed at every earlier iterate;
if the cap is reached with the test never triggering, it returns normally
with the `converged = false` signal, the partial iterate `step^[maxit] x0`
and the iteration count `maxit` — never an exception, never an unflagged
non-converged result. -/
theorem krylov_termination (step : Vec → Vec) (resnorm : Vec → ℚ)
    (rtol atol : ℚ) (maxit : ℕ) (x0 : Vec) :
    ((krylovSolve step resnorm rtol atol maxit x0).converged = true →
      (krylovSolve step resnorm rtol atol maxit x0).iterations ≤ maxit ∧
      (krylovSolve step resnorm rtol atol maxit x0).x =
        step^[(krylovSolve step resnorm rtol atol maxit x0).iterations] x0 ∧
      convTest rtol atol (resnorm x0)
        (resnorm ((krylovSolve step resnorm rtol atol maxit x0).x)) = true ∧
      (∀ i, i < (krylovSolve step resnorm rtol atol maxit x0).iterations →
        convTest rtol atol (resnorm x0) (resnorm (step^[i] x0)) = false)) ∧
    ((krylovSolve step resnorm rtol atol maxit x0).converged = false →
      (krylovSolve step resnorm rtol atol maxit x0).iterations = maxit ∧
      (krylovSolve step resnorm rtol atol maxit x0).x = step^[maxit] x0 ∧
      (∀ j, j ≤ maxit →
        convTest rtol atol (resnorm x0) (resnorm (step^[j] x0)) = false)) := by
  rcases krylovLoop_spec step resnorm rtol atol (resnorm x0) maxit x0 0 with
    ⟨j, hj, ht, hprev, heq⟩ | ⟨hall, heq⟩
  · have hres : krylovSolve step resnorm rtol atol maxit x0 =
        ⟨true, step^[j] x0, j⟩ := by
      unfold krylovSolve
      rw [heq]
      simp
    constructor
    · intro _
      rw [hres]
      exact ⟨hj, rfl, ht, hprev⟩
    · intro hfalse
      rw [hres] at hfalse
      simp at hfalse
  · have hres : krylovSolve step resnorm rtol atol maxit x0 =
        ⟨false, step^[maxit] x0, maxit⟩ := by
      unfold krylovSolve
      rw [heq]
      simp
    constructor
    · intro htrue
      rw [hres] at htrue
      simp at htrue
    · intro _
      rw [hres]
      exact ⟨rfl, rfl, hall⟩

/-- A concrete Krylov update halving the iterate, used as witness data. -/
def wStep : Vec → Vec := fun v i => v i / 2

/-- A concrete residual norm reading the leading entry, used as witness data. -/
def wNorm : Vec → ℚ := fun v => v 0

/-- C6 witness: with a residual halved each iteration, `rtol = 1/8` converges
within the cap of 10 iterations with the convergence test true at the
returned iterate, while `rtol = atol = 0` exhausts the cap and returns the
did-not-converge signal with iteration count 10. -/
theorem krylov_termination_witness :
    (krylovSolve wStep wNorm (1 / 8) 0 10 onesVec).converged = true ∧
    (krylovSolve wStep wNorm (1 / 8) 0 10 onesVec).iterations ≤ 10 ∧
    convTest (1 / 8) 0 (wNorm onesVec)
      (wNorm ((krylovSolve wStep wNorm (1 / 8) 0 10 onesVec).x)) = true ∧
    (krylovSolve wStep wNorm 0 0 10 onesVec).converged = false ∧
    (krylovSolve wStep wNorm 0 0 10 onesVec).iterations = 10 := by
  have hc : (krylovSolve wStep wNorm (1 / 8) 0 10 onesVec).converged = true := by
    norm_num [krylovSolve, krylovLoop, convTest, wStep, wNorm, onesVec]
  have hd : (krylovSolve wStep wNorm 0 0 10 onesVec).converged = false := by
    norm_num [krylovSolve, krylovLoop, convTest, wStep, wNorm, onesVec]
  have h1 := (krylov_termination wStep wNorm (1 / 8) 0 10 onesVec).1 hc
  have h2 := (krylov_termination wStep wNorm 0 0 10 onesVec).2 hd
  exact ⟨hc, h1.1, h1.2.2.1, hd, h2.1⟩

theorem dot_vsub_left (n : ℕ) (x y z : Vec) :
    dot n (vsub x y) z = dot n x z - dot n y z := by
  unfold dot vsub
  rw [← Finset.sum_sub_distrib]
  exact Finset.sum_congr rfl fun i _ => by ring

theorem dot_vadd_left (n : ℕ) (x y z : Vec) :
    dot n (vadd x y) z = dot n x z + dot n y z := by
  unfold dot vadd
  rw [← Finset.sum_add_distrib]
  exact Finset.sum_congr rfl fun i _ => by ring

theorem dot_smul_left (n : ℕ) (c : ℚ) (x y : Vec) :
    dot n (smul c x) y = c * dot n x y := by
  unfold dot smul
  rw [Finset.mul_sum]
  exact Finset.sum_congr rfl fun i _ => by ring

theorem dot_smul_right (n : ℕ) (c : ℚ) (x y : Vec) :
    dot n x (smul c y) = c * dot n x y := by
  rw [dot_comm, dot_smul_left, dot_comm]

theorem dot_vzero_left (n : ℕ) (y : Vec) : dot n vzero y = 0 := by
  unfold dot vzero
  simp

theorem dot_right_eq_zero_of_self (n : ℕ) (u : Vec) (h : dot n u u = 0) (v : Vec) :
    dot n v u = 0 := by
  have hz : ∀ i ∈ Finset.range n, u i * u i = 0 :=
    (Finset.sum_eq_zero_iff_of_nonneg fun j _ => mul_self_nonneg (u j)).mp h
  unfold dot
  apply Finset.sum_eq_zero
  intro i hi
  rw [mul_self_eq_zero.mp (hz i hi), mul_zero]

/-- Sum of a list of vectors. -/
def vsum : List Vec → Vec
  | [] => vzero
  | x :: xs => vadd x (vsum xs)

theorem dot_vsum (n : ℕ) (w : Vec) :
    ∀ l : List Vec, dot n (vsum l) w = (l.map fun x => dot n x w).sum := by
  intro l
  induction l with
  | nil => simp [vsum, dot_vzero_left]
  | cons x xs ih => rw [vsum, dot_vadd_left, List.map_cons, List.sum_cons, ih]

/-- Modelled from the spec: the Gram–Schmidt projection coefficient of `v`
onto `u` (zero when `u` vanishes on the active range). -/
def projCoeff (n : ℕ) (u v : Vec) : ℚ :=
  if dot n u u = 0 then 0 else dot n v u / dot n u u

/-- Modelled from the spec: one Gram–Schmidt step — subtract from `v` its
projections onto the already-orthogonalized vectors `us`. -/
def gsStep (n : ℕ) (us : List Vec) (v : Vec) : Vec :=
  vsub v (vsum (us.map fun u => smul (projCoeff n u v) u))

/-- Gram–Schmidt worker: `us` holds the vectors produced so far. -/
def gsAux (n : ℕ) (us : List Vec) : List Vec → List Vec
  | [] => []
  | v :: vs => gsStep n us v :: gsAux n (us ++ [gsStep n us v]) vs

/-- Modelled from the spec: classical Gram–Schmidt orthogonalization of a
list of basis vectors (the orthogonalization pass of Firedrake's
`VectorSpaceBasis.orthonormalize`, which is not in the notebook sources). -/
def gramSchmidt (n : ℕ) (vs : List Vec) : List Vec := gsAux n [] vs

/-- Modelled from the spec: orthonormalization — Gram–Schmidt followed by
scaling each vector to unit norm; `r` is the square-root oracle standing in
for the floating-point norm computation. -/
def orthonormalize (n : ℕ) (r : ℚ → ℚ) (vs : List Vec) : List Vec :=
  (gramSchmidt n vs).map fun u => smul (1 / r (dot n u u)) u

theorem dot_gsStep (n : ℕ) (us : List Vec) (v u0 : Vec) :
    dot n (gsStep n us v) u0 =
      dot n v u0 - (us.map fun u => projCoeff n u v * dot n u u0).sum := by
  unfold gsStep
  rw [dot_vsub_left, dot_vsum, List.map_map]
  simp [Function.comp_def, dot_smul_left]

theorem gsStep_orth (n : ℕ) (v : Vec) :
    ∀ us : List Vec, List.Pairwise (fun a b => dot n a b = 0) us →
      ∀ u0 ∈ us, dot n (gsStep n us v) u0 = 0 := by
  intro us
  induction us with
  | nil =>
    intro _ u0 h
    simp at h
  | cons w rest ih =>
    intro hp u0 hu0
    rw [List.pairwise_cons] at hp
    rw [dot_gsStep, List.map_cons, List.sum_cons]
    rcases List.mem_cons.mp hu0 with rfl | hmem
    · have hsum : (rest.map fun u => projCoeff n u v * dot n u u0).sum = 0 := by
        apply List.sum_eq_zero
        intro x hx
        rcases List.mem_map.mp hx with ⟨u, hu, rfl⟩
        rw [dot_comm, hp.1 u hu, mul_zero]
      rw [hsum, add_zero]
      by_cases hww : dot n u0 u0 = 0
      · unfold projCoeff
        rw [if_pos hww, dot_right_eq_zero_of_self n u0 hww v]
        ring
      · unfold projCoeff
        rw [if_neg hww, div_mul_cancel₀ _ hww]
        ring
    · have ihh := ih hp.2 u0 hmem
      rw [dot_gsStep] at ihh
      rw [hp.1 u0 hmem, mul_zero, zero_add]
      linarith [ihh]

theorem gsAux_pairwise (n : ℕ) :
    ∀ (vs us : List Vec), List.Pairwise (fun a b => dot n a b = 0) us →
      List.Pairwise (fun a b => dot n a b = 0) (us ++ gsAux n us vs) := by
  intro vs
  induction vs with
  | nil =>
    intro us h
    simpa [gsAux] using h
  | cons v vs ih =>
    intro us h
    have hpair : List.Pairwise (fun a b => dot n a b = 0)
        (us ++ [gsStep n us v]) := by
      rw [List.pairwise_append]
      refine ⟨h, List.pairwise_singleton _ _, fun a ha b hb => ?_⟩
      rw [List.mem_singleton] at hb
      subst hb
      rw [dot_comm]
      exact gsStep_orth n v us h a ha
    have hrec := ih (us ++ [gsStep n us v]) hpair
    simpa [gsAux, List.append_assoc] using hrec

/-- C9. Null-space orthonormalization: Gram–Schmidt applied to any supplied
near-null-space basis produces a pairwise-orthogonal family, and the
normalization pass scales every nonzero vector to unit norm whenever the
square-root oracle `r` is exact on the self-inner-products, so the basis
handed onward to multigrid/AMG coarsening is orthonormal even when the
caller's basis was not. -/
theorem orthonormalize_orthonormal (n : ℕ) (r : ℚ → ℚ) (vs : List Vec)
    (hr : ∀ u ∈ gramSchmidt n vs, r (dot n u u) ^ 2 = dot n u u) :
    List.Pairwise (fun a b => dot n a b = 0) (orthonormalize n r vs) ∧
    (∀ u ∈ gramSchmidt n vs, dot n u u ≠ 0 →
      dot n (smul (1 / r (dot n u u)) u) (smul (1 / r (dot n u u)) u) = 1) := by
  constructor
  · unfold orthonormalize
    have hgs : List.Pairwise (fun a b => dot n a b = 0) (gramSchmidt n vs) := by
      have := gsAux_pairwise n vs [] List.Pairwise.nil
      simpa [gramSchmidt] using this
    refine List.Pairwise.map _ ?_ hgs
    intro a b hab
    rw [dot_smul_left, dot_smul_right, hab]
    ring
  · intro u hu hne
    have h2 := hr u hu
    have hrne : r (dot n u u) ≠ 0 := by
      intro h0
      rw [h0] at h2
      simp at h2
      exact hne h2.symm
    rw [dot_smul_left, dot_smul_right]
    field_simp
    linarith [h2]

/-- A concrete non-orthonormalized basis vector `(3, 4)` for the witness. -/
def wv1 : Vec := fun i => if i = 0 then 3 else if i = 1 then 4 else 0

/-- A concrete non-orthonormalized basis vector `(1, 0)` for the witness. -/
def wv2 : Vec := fun i => if i = 0 then 1 else 0

/-- An exact square-root oracle on the two self-inner-products arising from
the witness basis. -/
def wR : ℚ → ℚ := fun q => if q = 25 then 5 else if q = 16 / 25 then 4 / 5 else 0

/-- C9 witness: orthonormalizing the basis `[(3,4), (1,0)]` yields a
pairwise-orthogonal family whose first vector has unit norm. -/
theorem orthonormalize_orthonormal_witness :
    List.Pairwise (fun a b => dot 2 a b = 0) (orthonormalize 2 wR [wv1, wv2]) ∧
    dot 2 (smul (1 / wR (dot 2 (gsStep 2 [] wv1) (gsStep 2 [] wv1))) (gsStep 2 [] wv1))
      (smul (1 / wR (dot 2 (gsStep 2 [] wv1) (gsStep 2 [] wv1))) (gsStep 2 [] wv1)) = 1 := by
  have hmem : gramSchmidt 2 [wv1, wv2] =
      [gsStep 2 [] wv1, gsStep 2 [gsStep 2 [] wv1] wv2] := rfl
  have e1 : dot 2 (gsStep 2 [] wv1) (gsStep 2 [] wv1) = 25 := by
    norm_num [dot, gsStep, vsub, vsum, vzero, wv1, Finset.sum_range_succ]
  have e2 : dot 2 (gsStep 2 [gsStep 2 [] wv1] wv2) (gsStep 2 [gsStep 2 [] wv1] wv2) =
      16 / 25 := by
    norm_num [dot, gsStep, vsub, vadd, vsum, vzero, smul, projCoeff, wv1, wv2,
      Finset.sum_range_succ]
  have hr : ∀ u ∈ gramSchmidt 2 [wv1, wv2], wR (dot 2 u u) ^ 2 = dot 2 u u := by
    intro u hu
    rw [hmem] at hu
    rcases List.mem_cons.mp hu with rfl | hu
    · rw [e1]
      norm_num [wR]
    · rcases List.mem_cons.mp hu with rfl | hu
      · rw [e2]
        norm_num [wR]
      · simp at hu
  have h := orthonormalize_orthonormal 2 wR [wv1, wv2] hr
  refine ⟨h.1, ?_⟩
  refine h.2 (gsStep 2 [] wv1) ?_ ?_
  · rw [hmem]
    exact List.mem_cons_self _ _
  · rw [e1]
    norm_num

/-- The 2×2 block saddle-point operator `[[A, B], [C, 0]]` of the mixed
Poisson / Stokes notebooks. -/
def saddleBlock {n m : ℕ} (A : Matrix (Fin n) (Fin n) ℚ)
    (B : Matrix (Fin n) (Fin m) ℚ) (C : Matrix (Fin m) (Fin n) ℚ) :
    Matrix (Fin n ⊕ Fin m) (Fin n ⊕ Fin m) ℚ :=
  Matrix.fromBlocks A B C 0

/-- The Schur complement `S = -C A⁻¹ B` of the notebooks' factorisation,
with `Ainv` the inverse of the `(1,1)` block. -/
def schurS {n m : ℕ} (Ainv : Matrix (Fin n) (Fin n) ℚ)
    (B : Matrix (Fin n) (Fin m) ℚ) (C : Matrix (Fin m) (Fin n) ℚ) :
    Matrix (Fin m) (Fin m) ℚ :=
  -(C * Ainv * B)

/-- The lower triangular factor `[[I, 0], [C A⁻¹, I]]`. -/
def lowerFactor {n m : ℕ} (Ainv : Matrix (Fin n) (Fin n) ℚ)
    (C : Matrix (Fin m) (Fin n) ℚ) : Matrix (Fin n ⊕ Fin m) (Fin n ⊕ Fin m) ℚ :=
  Matrix.fromBlocks 1 0 (C * Ainv) 1

/-- The block diagonal factor `[[A, 0], [0, S]]`. -/
def diagFactor {n m : ℕ} (A : Matrix (Fin n) (Fin n) ℚ)
    (S : Matrix (Fin m) (Fin m) ℚ) : Matrix (Fin n ⊕ Fin m) (Fin n ⊕ Fin m) ℚ :=
  Matrix.fromBlocks A 0 0 S

/-- The upper triangular factor `[[I, A⁻¹ B], [0, I]]`. -/
def upperFactor {n m : ℕ} (Ainv : Matrix (Fin n) (Fin n) ℚ)
    (B : Matrix (Fin n) (Fin m) ℚ) : Matrix (Fin n ⊕ Fin m) (Fin n ⊕ Fin m) ℚ :=
  Matrix.fromBlocks 1 (Ainv * B) 0 1

/-- The inverse's upper factor `[[I, -A⁻¹ B], [0, I]]`. -/
def invUpper {n m : ℕ} (Ainv : Matrix (Fin n) (Fin n) ℚ)
    (B : Matrix (Fin n) (Fin m) ℚ) : Matrix (Fin n ⊕ Fin m) (Fin n ⊕ Fin m) ℚ :=
  Matrix.fromBlocks 1 (-(Ainv * B)) 0 1

/-- The inverse's diagonal factor `[[A⁻¹, 0], [0, S⁻¹]]`. -/
def invDiag {n m : ℕ} (Ainv : Matrix (Fin n) (Fin n) ℚ)
    (Sinv : Matrix (Fin m) (Fin m) ℚ) : Matrix (Fin n ⊕ Fin m) (Fin n ⊕ Fin m) ℚ :=
  Matrix.fromBlocks Ainv 0 0 Sinv

/-- The inverse's lower factor `[[I, 0], [-C A⁻¹, I]]`. -/
def invLower {n m : ℕ} (Ainv : Matrix (Fin n) (Fin n) ℚ)
    (C : Matrix (Fin m) (Fin n) ℚ) : Matrix (Fin n ⊕ Fin m) (Fin n ⊕ Fin m) ℚ :=
  Matrix.fromBlocks 1 0 (-(C * Ainv)) 1

/-- C3. Schur-complement block factorization identity: for every 2×2 block
operator `[[A, B], [C, 0]]` with `A` invertible (inverse `Ainv`) and
`S = -C A⁻¹ B` invertible (inverse `Sinv`), the operator equals the
lower-diagonal-upper triple product of the notebooks, and the reversed
triple product of the inverse factors is a two-sided inverse of the
operator — the factorization the SchurComplementPreconditioner's
diag/lower/upper/full variants approximate. -/
theorem schur_factorization {n m : ℕ} (A Ainv : Matrix (Fin n) (Fin n) ℚ)
    (B : Matrix (Fin n) (Fin m) ℚ) (C : Matrix (Fin m) (Fin n) ℚ)
    (Sinv : Matrix (Fin m) (Fin m) ℚ)
    (hA1 : A * Ainv = 1) (hA2 : Ainv * A = 1)
    (hS1 : schurS Ainv B C * Sinv = 1) (hS2 : Sinv * schurS Ainv B C = 1) :
    saddleBlock A B C =
      lowerFactor Ainv C * diagFactor A (schurS Ainv B C) * upperFactor Ainv B ∧
    invUpper Ainv B * invDiag Ainv Sinv * invLower Ainv C * saddleBlock A B C = 1 ∧
    saddleBlock A B C * (invUpper Ainv B * invDiag Ainv Sinv * invLower Ainv C) = 1 := by
  have hCA : C * Ainv * A = C := by
    rw [Matrix.mul_assoc, hA2, Matrix.mul_one]
  have hAB : A * (Ainv * B) = B := by
    rw [← Matrix.mul_assoc, hA1, Matrix.one_mul]
  refine ⟨?_, ?_, ?_⟩
  · have h1 : lowerFactor Ainv C * diagFactor A (schurS Ainv B C) =
        Matrix.fromBlocks A 0 C (schurS Ainv B C) := by
      unfold lowerFactor diagFactor
      rw [Matrix.fromBlocks_multiply]
      simp [hCA]
    have h2 : Matrix.fromBlocks A 0 C (schurS Ainv B C) * upperFactor Ainv B =
        saddleBlock A B C := by
      unfold upperFactor saddleBlock
      rw [Matrix.fromBlocks_multiply]
      simp [schurS, Matrix.mul_assoc, hAB]
    rw [h1, h2]
  · have h1 : invLower Ainv C * saddleBlock A B C =
        Matrix.fromBlocks A B 0 (schurS Ainv B C) := by
      unfold invLower saddleBlock
      rw [Matrix.fromBlocks_multiply]
      simp [schurS, Matrix.mul_assoc, hA2]
    have h2 : invDiag Ainv Sinv * Matrix.fromBlocks A B 0 (schurS Ainv B C) =
        Matrix.fromBlocks 1 (Ainv * B) 0 1 := by
      unfold invDiag
      rw [Matrix.fromBlocks_multiply]
      simp [hA2, hS2]
    have h3 : invUpper Ainv B * Matrix.fromBlocks 1 (Ainv * B) 0 1 =
        (1 : Matrix (Fin n ⊕ Fin m) (Fin n ⊕ Fin m) ℚ) := by
      unfold invUpper
      rw [Matrix.fromBlocks_multiply]
      simp [Matrix.fromBlocks_one]
    rw [Matrix.mul_assoc, Matrix.mul_assoc, h1, h2, h3]
  · have h4 : saddleBlock A B C * invUpper Ainv B =
        Matrix.fromBlocks A 0 C (schurS Ainv B C) := by
      unfold invUpper saddleBlock
      rw [Matrix.fromBlocks_multiply]
      simp [schurS, Matrix.mul_assoc, hAB]
    have h5 : Matrix.fromBlocks A 0 C (schurS Ainv B C) * invDiag Ainv Sinv =
        Matrix.fromBlocks 1 0 (C * Ainv) 1 := by
      unfold invDiag
      rw [Matrix.fromBlocks_multiply]
      simp [hA1, hS1]
    have h6 : Matrix.fromBlocks 1 0 (C * Ainv) 1 * invLower Ainv C =
        (1 : Matrix (Fin n ⊕ Fin m) (Fin n ⊕ Fin m) ℚ) := by
      unfold invLower
      rw [Matrix.fromBlocks_multiply]
      simp [Matrix.fromBlocks_one]
    rw [← Matrix.mul_assoc, ← Matrix.mul_assoc, h4, h5, h6]

/-- Concrete `1×1` blocks for the factorization witness. -/
def wA : Matrix (Fin 1) (Fin 1) ℚ := !![2]

/-- Inverse of `wA`. -/
def wAinv : Matrix (Fin 1) (Fin 1) ℚ := !![1 / 2]

/-- Concrete off-diagonal block `B`. -/
def wB : Matrix (Fin 1) (Fin 1) ℚ := !![1]

/-- Concrete off-diagonal block `C`. -/
def wC : Matrix (Fin 1) (Fin 1) ℚ := !![1]

/-- Inverse of the Schur complement `-wC wAinv wB = -1/2`. -/
def wSinv : Matrix (Fin 1) (Fin 1) ℚ := !![-2]

theorem wMat_facts :
    wA * wAinv = 1 ∧ wAinv * wA = 1 ∧
    schurS wAinv wB wC * wSinv = 1 ∧ wSinv * schurS wAinv wB wC = 1 := by
  refine ⟨?_, ?_, ?_, ?_⟩ <;>
    · rw [← Matrix.ext_iff]
      intro i j
      fin_cases i <;> fin_cases j <;>
        norm_num [wA, wAinv, wB, wC, wSinv, schurS, Matrix.mul_apply,
          Fin.sum_univ_one, Matrix.one_apply]

/-- C3 witness: with the concrete `1×1` blocks `A = 2`, `B = C = 1`, the
saddle operator factors as stated and the inverse triple product is a left
inverse. -/
theorem schur_factorization_witness :
    saddleBlock wA wB wC =
      lowerFactor wAinv wC * diagFactor wA (schurS wAinv wB wC) *
        upperFactor wAinv wB ∧
    invUpper wAinv wB * invDiag wAinv wSinv * invLower wAinv wC *
      saddleBlock wA wB wC = 1 := by
  have hf := wMat_facts
  have h := schur_factorization wA wAinv wB wC wSinv hf.1 hf.2.1 hf.2.2.1 hf.2.2.2
  exact ⟨h.1, h.2.1⟩

end FiredrakeMG
